import Mathlib

/-!
Verification of the histogram core pipeline (src/core of the repository)
against its natural-language specification.

The embedding translates the TypeScript sources into Lean over exact
rational arithmetic:

* JS number values that flow through the pipeline are modelled as
  rationals.  A JS number that may be non-finite (NaN or an infinity) is
  modelled as JsVal, an Option of a rational, with none standing for a
  non-finite value; every use of isFinite in the source corresponds to an
  isSome test here.
* The real-valued library functions Math.sqrt, Math.cbrt and Math.log2
  have no exact rational counterpart; they are passed as explicit
  function parameters (sqrtF, cbrtF, log2F).  Every theorem below holds
  for an arbitrary choice of these parameters, so nothing proved depends
  on their values.
* The single throw site of the pipeline (the malformed-edges guard of
  accumulate) is modelled by an Option result: none is the thrown error.
* Dynamic text interpolated into warning strings is elided; warning
  identity and count are what the specification constrains.
-/

namespace Histogram

/-- A JS number as seen by the pipeline: some q is a finite value, none a
non-finite one (NaN or an infinity). -/
abbrev JsVal := Option ℚ

/-! ### src/core/constants.ts -/

/-- RIGHT_CLOSED_EPS = 1e-12, tolerance for right-closed edge inclusion. -/
def RIGHT_CLOSED_EPS : ℚ := 1 / 1000000000000

/-- WIDTH_EPS = Number.EPSILON = 2 ^ (-52), minimal safe bin width. -/
def WIDTH_EPS : ℚ := 1 / 2 ^ 52

/-- MAX_BINS = 10000, defensive upper bound on the number of bins. -/
def MAX_BINS : ℕ := 10000

/-! ### src/core/types.ts -/

/-- Edge-inclusion rule: "closed-right" or "closed-left". -/
inductive EdgeInclusionRule
  | closedRight
  | closedLeft
deriving DecidableEq, Repr

/-- The sub-rule of the auto binning strategy. -/
inductive AutoRule
  | sturges
  | scott
  | fd
deriving DecidableEq, Repr

/-- BinningStrategy: auto (with optional sub-rule), fixed width, or fixed
count.  Width and count payloads are finite numbers. -/
inductive BinningStrategy
  | auto (rule : Option AutoRule)
  | binWidth (w : ℚ)
  | binCount (c : ℚ)
deriving DecidableEq, Repr

/-- HistogramMeasure. -/
inductive HistogramMeasure
  | count
  | percent
  | density
  | cumulativeCount
  | cumulativePercent
  | cumulativeDensity
deriving DecidableEq, Repr

/-- measure?.startsWith("cumulative") of the source. -/
def HistogramMeasure.isCumulative : HistogramMeasure → Bool
  | .cumulativeCount => true
  | .cumulativePercent => true
  | .cumulativeDensity => true
  | _ => false

/-- The overflow selector: a boolean, a record with optional fields, or
undefined. -/
inductive OverflowSpec
  | bool (b : Bool)
  | flags (underflow overflow : Option Bool)
  | undef
deriving DecidableEq

/-! ### src/core/assign.ts -/

/-- classify (src/core/assign.ts).  Returns the signed bin index of x for
k uniform bins of width h starting at start: -1 for underflow, k for
overflow, and under the closed-right rule an index within
RIGHT_CLOSED_EPS of the top of the uniform grid (start + k * h) is folded
into bin k - 1. -/
def classify (x start h : ℚ) (k : ℕ) (rule : EdgeInclusionRule) : ℤ :=
  let idx : ℤ := ⌊(x - start) / h⌋
  if idx < 0 then -1
  else if (k : ℤ) ≤ idx then
    if rule = .closedRight ∧ |x - (start + (k : ℚ) * h)| < RIGHT_CLOSED_EPS then
      (k : ℤ) - 1
    else (k : ℤ)
  else idx

/-- The classifier exactly as the specification sentence describes it
(claim C1): the literal reading measures the closed-right folding
tolerance against the exact upper domain bound, passed here as the
parameter upper. -/
def specClassify (x start h : ℚ) (k : ℕ) (upper : ℚ) (rule : EdgeInclusionRule) : ℤ :=
  let idx : ℤ := ⌊(x - start) / h⌋
  if idx < 0 then -1
  else if (k : ℤ) ≤ idx then
    if rule = .closedRight ∧ |x - upper| < RIGHT_CLOSED_EPS then
      (k : ℤ) - 1
    else (k : ℤ)
  else idx

/-- The slot-selection branch of the accumulate loop: none when the
observation is dropped (underflow or overflow with the matching capture
flag disabled), otherwise the target slot. -/
def slotOf (e0 bw : ℚ) (k : ℕ) (rule : EdgeInclusionRule)
    (withUnder withOver : Bool) (x : ℚ) : Option ℕ :=
  let j := classify x e0 bw k rule
  if j < 0 then
    if withUnder then some 0 else none
  else if (k : ℤ) ≤ j then
    if withOver then some (k + (if withUnder then 1 else 0)) else none
  else
    some (j.toNat + (if withUnder then 1 else 0))

/-- The for-loop of accumulate: i is the original input index of the head
observation, mirroring the loop counter of the source. -/
def accLoop (e0 bw : ℚ) (k : ℕ) (rule : EdgeInclusionRule)
    (withUnder withOver : Bool) :
    ℕ → List (ℚ × ℚ) → List ℚ × List (List ℕ) → List ℚ × List (List ℕ)
  | _, [], st => st
  | i, (x, w) :: rest, (counts, items) =>
    match slotOf e0 bw k rule withUnder withOver x with
    | none => accLoop e0 bw k rule withUnder withOver (i + 1) rest (counts, items)
    | some slot =>
      accLoop e0 bw k rule withUnder withOver (i + 1) rest
        (counts.set slot (counts.getD slot 0 + w),
         items.set slot (items.getD slot [] ++ [i]))

/-- accumulate (src/core/assign.ts).  The start and h parameters are part
of the source signature but the body derives edge0 and binWidth from the
edges array, exactly as the source does.  The thrown error for a
malformed edge array is the none result.  The loop reads xs and ws in
lockstep, modelled by zip (the pipeline always passes equal-length
lists). -/
def accumulate (xs ws : List ℚ) (start h : ℚ) (edges : List ℚ)
    (rule : EdgeInclusionRule) (withUnder withOver : Bool) :
    Option (List ℚ × List (List ℕ)) :=
  let k := edges.length - 1
  let size := k + ((if withUnder then 1 else 0) + (if withOver then 1 else 0))
  if edges.length < 2 then none
  else
    some (accLoop (edges.getD 0 0) (edges.getD 1 0 - edges.getD 0 0) k rule
      withUnder withOver 0 (xs.zip ws)
      (List.replicate size 0, List.replicate size []))

/-! ### src/core/binning.ts -/

/-- clampWidth: clamp a proposed width to a safe, strictly positive
value.  Number.isFinite always holds for a rational, so the source
condition (isFinite and positive) is positivity here. -/
def clampWidth (w : ℚ) : ℚ :=
  max WIDTH_EPS (if 0 < w then w else 1)

/-- firstPositiveFinite helper of chooseBinWidth: the first candidate
that is positive (finiteness is automatic for rationals); none models
the NaN returned when no candidate qualifies. -/
def firstPositiveFinite (xs : List ℚ) : Option ℚ :=
  xs.find? (fun v => decide (0 < v))

/-- chooseBinWidth (src/core/binning.ts).  cbrtF and log2F stand for
Math.cbrt and Math.log2.  In the auto branch, the final JS expression
clampWidth(h or (range or 1)) reads: if the chosen candidate is NaN or
zero fall back to range, and to 1 when range is zero. -/
def chooseBinWidth (cbrtF log2F : ℚ → ℚ) (range : ℚ) (n : ℕ) (iqr sd : ℚ)
    (strat : Option BinningStrategy) : ℚ :=
  match strat with
  | none | some (.auto _) =>
    let rule : AutoRule :=
      match strat with
      | some (.auto r) => r.getD .fd
      | _ => .fd
    let safeN : ℕ := max 1 n
    let nRoot : ℚ := 1 / cbrtF (safeN : ℚ)
    let fd := 2 * iqr * nRoot
    let sc := (7 / 2 : ℚ) * sd * nRoot
    let stK : ℤ := max 1 ⌈log2F (safeN : ℚ) + 1⌉
    let st := range / (stK : ℚ)
    let h : Option ℚ :=
      match rule with
      | .fd => firstPositiveFinite [fd, sc, st]
      | .scott => firstPositiveFinite [sc, fd, st]
      | .sturges => if st = 0 then none else some st
    clampWidth (h.getD (if range = 0 then 1 else range))
  | some (.binWidth w) => clampWidth w
  | some (.binCount c) =>
    let k : ℤ := max 1 ⌊c⌋
    clampWidth (range / (k : ℚ))

/-- buildEdges (src/core/binning.ts): k uniformly spaced points from
start, then the final slot overwritten with the exact end. -/
def buildEdges (start e h : ℚ) : List ℚ :=
  let k : ℕ := (max 1 ⌈(e - start) / h⌉).toNat
  ((List.range k).map (fun i : ℕ => start + (i : ℚ) * h)) ++ [e]

/-! ### src/core/stats.ts -/

/-- Insertion step of the ascending sort used to model the numeric sort
of Float64Array. -/
def insertSorted (a : ℚ) : List ℚ → List ℚ
  | [] => [a]
  | b :: t => if a ≤ b then a :: b :: t else b :: insertSorted a t

/-- Ascending numeric sort (models Float64Array.from(xs).sort()). -/
def sortAsc (l : List ℚ) : List ℚ :=
  l.foldr insertSorted []

/-- quantile (src/core/stats.ts): linear-interpolation quantile on an
ascending-sorted non-empty array.  Out-of-range reads (which the source
contract excludes) default to 0. -/
def quantile (sorted : List ℚ) (p : ℚ) : ℚ :=
  let pos := ((sorted.length : ℚ) - 1) * p
  let lo := ⌊pos⌋
  let hi := ⌈pos⌉
  if lo = hi then sorted.getD lo.toNat 0
  else
    sorted.getD lo.toNat 0 +
      (sorted.getD hi.toNat 0 - sorted.getD lo.toNat 0) * (pos - (lo : ℚ))

/-- The summary record returned by summarize. -/
structure Summary where
  min : ℚ
  max : ℚ
  mean : ℚ
  variance : ℚ
  sd : ℚ
  iqr : ℚ
  totalWeight : ℚ
deriving DecidableEq, Repr

/-- summarize (src/core/stats.ts).  The single for-loop of the source
reads xs and ws in lockstep and accumulates min, max, sum, sumsq and tw;
it is modelled by folds over the zipped list (the pipeline always passes
equal-length non-empty lists; the headD 0 seed models xs[0]).  sqrtF
stands for Math.sqrt. -/
def summarize (sqrtF : ℚ → ℚ) (xs ws : List ℚ) : Summary :=
  let pairs := xs.zip ws
  let mn := pairs.foldl (fun m p => if p.1 < m then p.1 else m) (xs.headD 0)
  let mx := pairs.foldl (fun m p => if m < p.1 then p.1 else m) (xs.headD 0)
  let sum := (pairs.map (fun p => p.1 * p.2)).sum
  let sumsq := (pairs.map (fun p => p.1 * p.1 * p.2)).sum
  let tw := (pairs.map (fun p => p.2)).sum
  let mean := sum / tw
  let variance := max 0 (sumsq / tw - mean * mean)
  let sorted := sortAsc xs
  let iqr := max 0 (quantile sorted (3 / 4) - quantile sorted (1 / 4))
  { min := mn, max := mx, mean := mean, variance := variance,
    sd := sqrtF variance, iqr := iqr, totalWeight := tw }

/-! ### src/core/engine.helpers.ts -/

/-- A data item: a JS number (possibly non-finite) or a non-numeric
value.  A non-numeric value read through the numeric fast path fails the
isFinite coercion and is skipped, which valueOnFastPath models. -/
inductive Item
  | num (v : JsVal)
  | other

/-- The weight option: a numeric constant, a per-item accessor (whose
result may be null or undefined, the outer none), or undefined. -/
inductive WeightSpec
  | num (c : JsVal)
  | fn (f : Item → ℕ → Option JsVal)
  | undef

/-- The full logic configuration (src/core/types.ts).  The optional
value accessor x may return null or undefined (outer none) or a
non-finite number (some none). -/
structure HistogramLogicConfig where
  data : List Item
  x : Option (Item → ℕ → Option JsVal) := none
  weight : WeightSpec := .undef
  domain : Option (JsVal × JsVal) := none
  binning : Option BinningStrategy := none
  edgeRule : Option EdgeInclusionRule := none
  overflow : OverflowSpec := .undef
  measure : Option HistogramMeasure := none

/-- Extraction result. -/
structure Extracted where
  xs : List ℚ
  ws : List ℚ
  warnings : List String

/-- Warning emitted when non-numeric data arrives without an accessor. -/
def nonNumericWarning : String :=
  "Non-numeric data provided without an accessor x. All items will be ignored."

/-- The value resolved for one item on the numeric fast path: a
non-numeric item coerces to a non-finite value under isFinite. -/
def valueOnFastPath : Item → JsVal
  | .num j => j
  | .other => none

/-- The body of the extraction for-loop, recursing over the items with
the running input index i. -/
def extractLoop (isNum : Bool) (x : Option (Item → ℕ → Option JsVal))
    (weight : WeightSpec) : ℕ → List Item → List ℚ × List ℚ
  | _, [] => ([], [])
  | i, it :: rest =>
    let tail := extractLoop isNum x weight (i + 1) rest
    let v : Option JsVal :=
      if isNum then some (valueOnFastPath it)
      else match x with
        | none => none
        | some f => f it i
    match v with
    | some (some q) =>
      let wv : JsVal :=
        match weight with
        | .num c => c
        | .fn f =>
          match f it i with
          | some j => j
          | none => none
        | .undef => some 1
      match wv with
      | some w => if 0 < w then (q :: tail.1, w :: tail.2) else tail
      | none => tail
    | _ => tail

/-- extractValuesAndWeights (src/core/engine.helpers.ts). -/
def extractValuesAndWeights (cfg : HistogramLogicConfig) : Extracted :=
  let isNum : Bool :=
    match cfg.data.head? with
    | some (.num _) => true
    | _ => false
  let warnings := if ¬isNum ∧ cfg.x.isNone then [nonNumericWarning] else []
  let lists := extractLoop isNum cfg.x cfg.weight 0 cfg.data
  { xs := lists.1, ws := lists.2, warnings := warnings }

/-- Warning for a non-finite caller domain. -/
def nonFiniteDomainWarning : String :=
  "Provided domain contains non-finite values; falling back to observed min/max."

/-- Warning for a reversed caller domain. -/
def reversedDomainWarning : String :=
  "Provided domain was reversed; it has been normalized to [min, max]."

/-- Warning for a zero-width domain. -/
def zeroWidthDomainWarning : String :=
  "Zero-width domain encountered; expanded symmetrically by a small epsilon."

/-- The final d0 == d1 expansion step of resolveDomain. -/
def expandIfDegenerate (d0 d1 : ℚ) (w : List String) : ℚ × ℚ × List String :=
  if d0 = d1 then
    let eps := if d0 = 0 then 1 else |d0| * (1 / 1000000)
    (d0 - eps, d1 + eps, w ++ [zeroWidthDomainWarning])
  else (d0, d1, w)

/-- resolveDomain (src/core/engine.helpers.ts).  The domain argument is
none when the caller supplied none; a supplied endpoint is none when it
is non-finite. -/
def resolveDomain (domain : Option (JsVal × JsVal))
    (observedMin observedMax : ℚ) : ℚ × ℚ × List String :=
  match domain with
  | some (a, b) =>
    let step1 : List String × ℚ × ℚ :=
      match a, b with
      | some qa, some qb => ([], qa, qb)
      | _, _ => ([nonFiniteDomainWarning], observedMin, observedMax)
    let step2 : List String × ℚ × ℚ :=
      if step1.2.2 < step1.2.1 then
        (step1.1 ++ [reversedDomainWarning], step1.2.2, step1.2.1)
      else step1
    expandIfDegenerate step2.2.1 step2.2.2 step2.1
  | none => expandIfDegenerate observedMin observedMax []

/-- Warning for exceeding MAX_BINS (dynamic numbers elided). -/
def maxBinsWarning : String :=
  "Bin count exceeds MAX_BINS; increasing bin width."

/-- The binning plan returned by computeBinningPlan. -/
structure BinningPlan where
  h : ℚ
  edges : List ℚ
  binWarnings : List String
deriving DecidableEq, Repr

/-- computeBinningPlan (src/core/engine.helpers.ts). -/
def computeBinningPlan (cbrtF log2F : ℚ → ℚ) (d0 d1 : ℚ) (n : ℕ)
    (iqr sd : ℚ) (binning : Option BinningStrategy) : BinningPlan :=
  let range := d1 - d0
  let h1 := max WIDTH_EPS
    (chooseBinWidth cbrtF log2F range n iqr sd
      (some (binning.getD (.auto (some .fd)))))
  let k1 : ℤ := max 1 ⌈range / h1⌉
  if (MAX_BINS : ℤ) < k1 then
    let adjustedH := range / (MAX_BINS : ℚ)
    let h2 := max WIDTH_EPS adjustedH
    { h := h2, edges := buildEdges d0 d1 h2, binWarnings := [maxBinsWarning] }
  else
    { h := h1, edges := buildEdges d0 d1 h1, binWarnings := [] }

/-- resolveOverflowFlags (src/core/engine.helpers.ts). -/
def resolveOverflowFlags : OverflowSpec → Bool × Bool
  | .bool b => (b, b)
  | .flags u o => (u.getD false, o.getD false)
  | .undef => (false, false)

/-- An extended value: a bin bound may be negative or positive infinity. -/
inductive EV
  | ninf
  | pinf
  | fin (q : ℚ)
deriving DecidableEq, Repr

/-- isFinite test on an extended value. -/
def EV.isFin : EV → Bool
  | .fin _ => true
  | _ => false

/-- The public bin record (src/core/types.ts).  The end field of the
source is named stop here because end is a Lean keyword. -/
structure HistogramBin where
  index : ℕ
  start : EV
  stop : EV
  center : EV
  width : ℚ
  count : ℚ
  percent : ℚ
  density : ℚ
  cumulativeCount : Option ℚ := none
  cumulativePercent : Option ℚ := none
  cumulativeDensity : Option ℚ := none
  items : List ℕ
deriving DecidableEq, Repr

/-- buildBins (src/core/engine.helpers.ts).  The running cumulative sum
cum after processing bin i equals the sum of the first i + 1 counts. -/
def buildBins (counts : List ℚ) (items : List (List ℕ)) (edges : List ℚ)
    (h : ℚ) (under over : Bool) (totalW : ℚ)
    (measure : Option HistogramMeasure) : List HistogramBin :=
  let k := counts.length
  let u : ℕ := if under then 1 else 0
  let widths : ℕ → ℚ := fun i =>
    if i + 1 < edges.length then edges.getD (i + 1) 0 - edges.getD i 0 else h
  let isCum : Bool :=
    match measure with
    | some m => m.isCumulative
    | none => false
  (List.range k).map (fun i =>
    let start : EV :=
      if i = 0 ∧ under then .ninf else .fin (edges.getD (i - u) 0)
    let stop : EV :=
      if i = k - 1 ∧ over then .pinf
      else .fin (edges.getD (min (edges.length - 1) (i + 1 - u)) 0)
    let w := widths (i - u)
    let widthEff := if 0 < w then w else max h WIDTH_EPS
    let count := counts.getD i 0
    let percent := count / totalW * 100
    let density := count / (totalW * widthEff)
    let cum := (counts.take (i + 1)).sum
    let center : EV :=
      match start, stop with
      | .fin a, .fin b => .fin ((a + b) / 2)
      | .fin a, _ => .fin a
      | _, e => e
    { index := i, start := start, stop := stop, center := center,
      width := widthEff, count := count, percent := percent,
      density := density,
      cumulativeCount := if isCum then some cum else none,
      cumulativePercent := if isCum then some (cum / totalW * 100) else none,
      cumulativeDensity := if isCum then some (cum / totalW) else none,
      items := items.getD i [] })

/-! ### src/core/engine.ts -/

/-- The stats record of the result. -/
structure HistogramStats where
  n : ℕ
  totalWeight : ℚ
  min : ℚ
  max : ℚ
  mean : ℚ
  variance : ℚ
  sd : ℚ
  iqr : ℚ
deriving DecidableEq, Repr

/-- The full result record. -/
structure HistogramResult where
  bins : List HistogramBin
  domain : ℚ × ℚ
  binWidth : ℚ
  stats : HistogramStats
  warnings : List String
deriving DecidableEq, Repr

/-- Warning of the zero-total-weight escape hatch. -/
def zeroWeightWarning : String :=
  "Total weight is zero after filtering; returning empty histogram."

/-- The empty-result sentinel (function empty of src/core/engine.ts). -/
def emptyResult (extra : List String) : HistogramResult :=
  { bins := [], domain := (0, 1), binWidth := 1,
    stats := { n := 0, totalWeight := 0, min := 0, max := 1, mean := 0,
               variance := 0, sd := 0, iqr := 0 },
    warnings := "No valid data" :: extra }

/-- computeHistogram (src/core/engine.ts).  sqrtF, cbrtF and log2F stand
for Math.sqrt, Math.cbrt and Math.log2; none models the error thrown by
accumulate on a malformed edge array. -/
def computeHistogram (sqrtF cbrtF log2F : ℚ → ℚ)
    (cfg : HistogramLogicConfig) : Option HistogramResult :=
  let ex := extractValuesAndWeights cfg
  if ex.xs.length = 0 then some (emptyResult ex.warnings)
  else
    let s := summarize sqrtF ex.xs ex.ws
    let rd := resolveDomain cfg.domain s.min s.max
    let warnings1 := ex.warnings ++ rd.2.2
    let plan := computeBinningPlan cbrtF log2F rd.1 rd.2.1 ex.xs.length
      s.iqr s.sd cfg.binning
    let warnings2 := warnings1 ++ plan.binWarnings
    let flags := resolveOverflowFlags cfg.overflow
    match accumulate ex.xs ex.ws (plan.edges.getD 0 0) plan.h plan.edges
      (cfg.edgeRule.getD .closedRight) flags.1 flags.2 with
    | none => none
    | some acc =>
      let totalW := s.totalWeight
      if ¬0 < totalW then
        some (emptyResult (warnings2 ++ [zeroWeightWarning]))
      else
        some {
          bins := buildBins acc.1 acc.2 plan.edges plan.h flags.1 flags.2
            totalW cfg.measure,
          domain := (rd.1, rd.2.1),
          binWidth := plan.h,
          stats := { n := ex.xs.length, totalWeight := totalW, min := s.min,
                     max := s.max, mean := s.mean, variance := s.variance,
                     sd := s.sd, iqr := s.iqr },
          warnings := warnings2 }

/-- The accumulation loop entries with their original input indices:
withIdx i ps pairs every observation of ps with its loop counter,
starting at i. -/
def withIdx : ℕ → List (ℚ × ℚ) → List (ℕ × ℚ × ℚ)
  | _, [] => []
  | i, p :: t => (i, p.1, p.2) :: withIdx (i + 1) t

/-- The entries of withIdx i ps assigned to slot s. -/
def assignedTo (e0 bw : ℚ) (k : ℕ) (rule : EdgeInclusionRule)
    (withUnder withOver : Bool) (s : ℕ) (entries : List (ℕ × ℚ × ℚ)) :
    List (ℕ × ℚ × ℚ) :=
  entries.filter (fun e => decide (slotOf e0 bw k rule withUnder withOver e.2.1 = some s))

/-- The zero function, used to instantiate the Math.sqrt / Math.cbrt /
Math.log2 parameters at concrete inputs (none of the evaluated
quantities depend on them). -/
def zfun : ℚ → ℚ := fun _ => 0

/-- Concrete configuration with an empty data array (claim C3). -/
def cfgEmpty : HistogramLogicConfig := { data := [] }

/-- Concrete configuration for claim C5: values 1/2 and 5 over the
supplied domain [0, 1] with width 1 and no overflow capture, so the
value 5 is dropped at classification. -/
def cfgC5 : HistogramLogicConfig :=
  { data := [.num (some (1 / 2)), .num (some 5)],
    domain := some (some 0, some 1),
    binning := some (.binWidth 1) }

/-- Concrete configuration for claim C2: values 1 and 2, both capture
flags enabled, width 1. -/
def cfgC2 : HistogramLogicConfig :=
  { data := [.num (some 1), .num (some 2)],
    overflow := .bool true,
    binning := some (.binWidth 1) }

/-! ### Helper lemmas about lists -/

theorem list_getD_set_self {α : Type} (d a : α) :
    ∀ (l : List α) (n : ℕ), n < l.length → (l.set n a).getD n d = a
  | [], n, h => absurd h (by simp)
  | _ :: _, 0, _ => rfl
  | _ :: t, n + 1, h => by
    simpa using list_getD_set_self d a t n (by simpa using h)

theorem list_getD_set_ne {α : Type} (d a : α) :
    ∀ (l : List α) (m n : ℕ), m ≠ n → (l.set n a).getD m d = l.getD m d
  | [], _, _, _ => by simp
  | _ :: _, 0, 0, h => absurd rfl h
  | _ :: _, 0, _ + 1, _ => rfl
  | _ :: _, _ + 1, 0, _ => rfl
  | _ :: t, m + 1, n + 1, h => by
    simpa using list_getD_set_ne d a t m n (fun hh => h (by rw [hh]))

theorem list_sum_set_add (w : ℚ) :
    ∀ (l : List ℚ) (n : ℕ), n < l.length →
      (l.set n (l.getD n 0 + w)).sum = l.sum + w
  | [], n, h => absurd h (by simp)
  | a :: t, 0, _ => by simp [List.sum_cons]; ring
  | a :: t, n + 1, h => by
    have ih := list_sum_set_add w t n (by simpa using h)
    have hset : (a :: t).set (n + 1) ((a :: t).getD (n + 1) 0 + w)
        = a :: t.set n (t.getD n 0 + w) := rfl
    rw [hset, List.sum_cons, List.sum_cons, ih]
    ring

theorem list_map_getD_range :
    ∀ (l : List ℚ), (List.range l.length).map (fun i => l.getD i 0) = l
  | [] => rfl
  | a :: t => by
    rw [List.length_cons, List.range_succ_eq_map, List.map_cons, List.map_map]
    exact congrArg (a :: ·) (list_map_getD_range t)

theorem list_getD_append {α : Type} (d : α) :
    ∀ (l1 l2 : List α) (i : ℕ), i < l1.length →
      (l1 ++ l2).getD i d = l1.getD i d
  | [], _, i, h => absurd h (by simp)
  | _ :: _, _, 0, _ => rfl
  | _ :: t, l2, i + 1, h => list_getD_append d t l2 i (by simpa using h)

theorem list_getD_append_len {α : Type} (d e : α) :
    ∀ (l1 : List α), (l1 ++ [e]).getD l1.length d = e
  | [] => rfl
  | _ :: t => list_getD_append_len d e t

theorem list_getD_range_map (f : ℕ → ℚ) (d : ℚ) (k i : ℕ) (h : i < k) :
    ((List.range k).map f).getD i d = f i := by
  have hi : i < ((List.range k).map f).length := by simpa using h
  rw [List.getD_eq_getElem _ _ hi]
  simp

theorem zip_map_snd :
    ∀ (xs ws : List ℚ), xs.length = ws.length →
      (xs.zip ws).map (fun p => p.2) = ws
  | [], [], _ => rfl
  | [], _ :: _, h => absurd h (by simp)
  | _ :: _, [], h => absurd h (by simp)
  | x :: xs, w :: ws, h => by
    simpa using zip_map_snd xs ws (by simpa using h)

theorem zip_map_mul :
    ∀ (xs ws : List ℚ),
      (xs.zip ws).map (fun p => p.1 * p.2) = List.zipWith (fun a b => a * b) xs ws
  | [], _ => by simp
  | _ :: _, [] => by simp
  | x :: xs, w :: ws => by
    simpa using zip_map_mul xs ws

theorem mem_withIdx :
    ∀ (ps : List (ℚ × ℚ)) (i : ℕ) (e : ℕ × ℚ × ℚ), e ∈ withIdx i ps →
      i ≤ e.1 ∧ ps.get? (e.1 - i) = some (e.2.1, e.2.2)
  | [], _, _, h => absurd h (by simp [withIdx])
  | p :: t, i, e, h => by
    rw [withIdx] at h
    rcases List.mem_cons.mp h with h1 | h2
    · subst h1; simp
    · obtain ⟨hle, hget⟩ := mem_withIdx t (i + 1) e h2
      refine ⟨by omega, ?_⟩
      have : e.1 - i = (e.1 - (i + 1)) + 1 := by omega
      rw [this]
      simpa using hget

theorem withIdx_mem_of_get? :
    ∀ (ps : List (ℚ × ℚ)) (i j : ℕ) (p : ℚ × ℚ), ps.get? j = some p →
      (i + j, p.1, p.2) ∈ withIdx i ps
  | [], _, j, _, h => by simp at h
  | q :: t, i, 0, p, h => by
    simp only [List.get?_cons_zero, Option.some_inj] at h
    subst h
    simp [withIdx]
  | q :: t, i, j + 1, p, h => by
    rw [withIdx]
    refine List.mem_cons_of_mem _ ?_
    have := withIdx_mem_of_get? t (i + 1) j p (by simpa using h)
    simpa [Nat.add_assoc, Nat.add_comm 1 j] using this

/-! ### Invariants of the accumulate loop -/

theorem slotOf_lt (e0 bw : ℚ) (k : ℕ) (rule : EdgeInclusionRule)
    (wU wO : Bool) (hk : 1 ≤ k) (x : ℚ) (s : ℕ)
    (h : slotOf e0 bw k rule wU wO x = some s) :
    s < k + ((if wU then 1 else 0) + (if wO then 1 else 0)) := by
  unfold slotOf at h
  by_cases h1 : classify x e0 bw k rule < 0
  · rw [if_pos h1] at h
    by_cases hu : wU = true
    · rw [if_pos hu] at h
      have hs : (0 : ℕ) = s := Option.some_inj.mp h
      subst hu
      simp only [if_true]
      omega
    · rw [if_neg hu] at h
      exact absurd h (by simp)
  · by_cases h2 : (k : ℤ) ≤ classify x e0 bw k rule
    · rw [if_neg h1, if_pos h2] at h
      by_cases ho : wO = true
      · rw [if_pos ho] at h
        have hs : k + (if wU then 1 else 0) = s := Option.some_inj.mp h
        subst ho
        cases wU <;> simp at hs ⊢ <;> omega
      · rw [if_neg ho] at h
        exact absurd h (by simp)
    · rw [if_neg h1, if_neg h2] at h
      have hs : (classify x e0 bw k rule).toNat + (if wU then 1 else 0) = s :=
        Option.some_inj.mp h
      have hlt2 : (classify x e0 bw k rule).toNat < k := by omega
      cases wU <;> cases wO <;> simp at hs ⊢ <;> omega

theorem slotOf_isSome (e0 bw : ℚ) (k : ℕ) (rule : EdgeInclusionRule) (x : ℚ) :
    (slotOf e0 bw k rule true true x).isSome := by
  unfold slotOf
  by_cases h1 : classify x e0 bw k rule < 0
  · simp [h1]
  · by_cases h2 : (k : ℤ) ≤ classify x e0 bw k rule <;> simp [h1, h2]

theorem accLoop_spec (e0 bw : ℚ) (k : ℕ) (rule : EdgeInclusionRule)
    (wU wO : Bool) (n : ℕ)
    (hlt : ∀ x s, slotOf e0 bw k rule wU wO x = some s → s < n) :
    ∀ (ps : List (ℚ × ℚ)) (i : ℕ) (c : List ℚ) (it : List (List ℕ)),
      c.length = n → it.length = n →
      (accLoop e0 bw k rule wU wO i ps (c, it)).1.length = n ∧
      (accLoop e0 bw k rule wU wO i ps (c, it)).2.length = n ∧
      ∀ s, s < n →
        (accLoop e0 bw k rule wU wO i ps (c, it)).2.getD s [] =
          it.getD s [] ++
            (assignedTo e0 bw k rule wU wO s (withIdx i ps)).map (fun e => e.1) ∧
        (accLoop e0 bw k rule wU wO i ps (c, it)).1.getD s 0 =
          c.getD s 0 +
            ((assignedTo e0 bw k rule wU wO s (withIdx i ps)).map (fun e => e.2.2)).sum
  | [], i, c, it, hc, hit => by
    refine ⟨hc, hit, fun s _ => ?_⟩
    simp [accLoop, withIdx, assignedTo]
  | (x, w) :: t, i, c, it, hc, hit => by
    have hwi : withIdx i ((x, w) :: t) = (i, x, w) :: withIdx (i + 1) t := rfl
    cases hslot : slotOf e0 bw k rule wU wO x with
    | none =>
      have hstep : accLoop e0 bw k rule wU wO i ((x, w) :: t) (c, it)
          = accLoop e0 bw k rule wU wO (i + 1) t (c, it) := by
        simp [accLoop, hslot]
      obtain ⟨h1, h2, h3⟩ :=
        accLoop_spec e0 bw k rule wU wO n hlt t (i + 1) c it hc hit
      refine ⟨by rw [hstep]; exact h1, by rw [hstep]; exact h2, fun s hs => ?_⟩
      obtain ⟨ha, hb⟩ := h3 s hs
      have hfil : assignedTo e0 bw k rule wU wO s (withIdx i ((x, w) :: t))
          = assignedTo e0 bw k rule wU wO s (withIdx (i + 1) t) := by
        rw [hwi]
        simp [assignedTo, List.filter_cons, hslot]
      rw [hstep, hfil]
      exact ⟨ha, hb⟩
    | some s0 =>
      have hs0 : s0 < n := hlt x s0 hslot
      have hstep : accLoop e0 bw k rule wU wO i ((x, w) :: t) (c, it)
          = accLoop e0 bw k rule wU wO (i + 1) t
              (c.set s0 (c.getD s0 0 + w), it.set s0 (it.getD s0 [] ++ [i])) := by
        simp [accLoop, hslot]
      have hc' : (c.set s0 (c.getD s0 0 + w)).length = n := by
        rw [List.length_set]; exact hc
      have hit' : (it.set s0 (it.getD s0 [] ++ [i])).length = n := by
        rw [List.length_set]; exact hit
      obtain ⟨h1, h2, h3⟩ :=
        accLoop_spec e0 bw k rule wU wO n hlt t (i + 1)
          (c.set s0 (c.getD s0 0 + w)) (it.set s0 (it.getD s0 [] ++ [i])) hc' hit'
      refine ⟨by rw [hstep]; exact h1, by rw [hstep]; exact h2, fun s hs => ?_⟩
      obtain ⟨ha, hb⟩ := h3 s hs
      by_cases hss : s = s0
      · subst hss
        have hfil : assignedTo e0 bw k rule wU wO s (withIdx i ((x, w) :: t))
            = (i, x, w) :: assignedTo e0 bw k rule wU wO s (withIdx (i + 1) t) := by
          rw [hwi]
          simp [assignedTo, List.filter_cons, hslot]
        constructor
        · rw [hstep, ha, hfil,
            list_getD_set_self [] (it.getD s [] ++ [i]) it s (hit ▸ hs)]
          simp
        · rw [hstep, hb, hfil,
            list_getD_set_self 0 (c.getD s 0 + w) c s (hc ▸ hs)]
          simp [add_assoc]
      · have hfil : assignedTo e0 bw k rule wU wO s (withIdx i ((x, w) :: t))
            = assignedTo e0 bw k rule wU wO s (withIdx (i + 1) t) := by
          rw [hwi]
          simp only [assignedTo, List.filter_cons]
          have : ¬(slotOf e0 bw k rule wU wO x = some s) := by
            rw [hslot]
            simpa using fun hh => hss hh.symm
          simp [this]
        constructor
        · rw [hstep, ha, hfil, list_getD_set_ne [] _ it s s0 hss]
        · rw [hstep, hb, hfil, list_getD_set_ne 0 _ c s s0 hss]

theorem accLoop_sum (e0 bw : ℚ) (k : ℕ) (rule : EdgeInclusionRule) (n : ℕ)
    (hlt : ∀ x s, slotOf e0 bw k rule true true x = some s → s < n) :
    ∀ (ps : List (ℚ × ℚ)) (i : ℕ) (c : List ℚ) (it : List (List ℕ)),
      c.length = n →
      (accLoop e0 bw k rule true true i ps (c, it)).1.sum =
        c.sum + (ps.map (fun p => p.2)).sum
  | [], i, c, it, hc => by simp [accLoop]
  | (x, w) :: t, i, c, it, hc => by
    cases hslot : slotOf e0 bw k rule true true x with
    | none =>
      have := slotOf_isSome e0 bw k rule x
      rw [hslot] at this
      simp at this
    | some s0 =>
      have hs0 : s0 < c.length := hc ▸ hlt x s0 hslot
      have hstep : accLoop e0 bw k rule true true i ((x, w) :: t) (c, it)
          = accLoop e0 bw k rule true true (i + 1) t
              (c.set s0 (c.getD s0 0 + w), it.set s0 (it.getD s0 [] ++ [i])) := by
        simp [accLoop, hslot]
      have hc' : (c.set s0 (c.getD s0 0 + w)).length = n := by
        rw [List.length_set]; exact hc
      rw [hstep,
        accLoop_sum e0 bw k rule n hlt t (i + 1) _ _ hc',
        list_sum_set_add w c s0 hs0]
      simp [add_assoc]

theorem list_getD_replicate {α : Type} (d a : α) :
    ∀ (n i : ℕ), i < n → (List.replicate n a).getD i d = a
  | 0, _, h => absurd h (by simp)
  | _ + 1, 0, _ => rfl
  | n + 1, i + 1, h =>
    list_getD_replicate d a n i (by omega)

theorem list_getD_of_get? {α : Type} (d : α) :
    ∀ {l : List α} {n : ℕ} {a : α}, l.get? n = some a → l.getD n d = a
  | [], n, a, h => by simp at h
  | b :: t, 0, a, h => by
    simp only [List.get?_cons_zero, Option.some_inj] at h
    simpa using h
  | b :: t, n + 1, a, h =>
    list_getD_of_get? d (l := t) (by simpa using h)

theorem list_map_congr {α β : Type} (f g : α → β) :
    ∀ (l : List α), (∀ a ∈ l, f a = g a) → l.map f = l.map g
  | [], _ => rfl
  | a :: t, h => by
    rw [List.map_cons, List.map_cons, h a (by simp),
      list_map_congr f g t (fun b hb => h b (List.mem_cons_of_mem a hb))]

theorem accumulate_spec (xs ws : List ℚ) (st h : ℚ) (edges : List ℚ)
    (rule : EdgeInclusionRule) (wU wO : Bool) (counts : List ℚ)
    (items : List (List ℕ))
    (hacc : accumulate xs ws st h edges rule wU wO = some (counts, items)) :
    2 ≤ edges.length ∧
    counts.length =
      (edges.length - 1) + ((if wU then 1 else 0) + (if wO then 1 else 0)) ∧
    items.length =
      (edges.length - 1) + ((if wU then 1 else 0) + (if wO then 1 else 0)) ∧
    ∀ s, s < (edges.length - 1) + ((if wU then 1 else 0) + (if wO then 1 else 0)) →
      items.getD s [] =
        (assignedTo (edges.getD 0 0) (edges.getD 1 0 - edges.getD 0 0)
          (edges.length - 1) rule wU wO s (withIdx 0 (xs.zip ws))).map
            (fun e => e.1) ∧
      counts.getD s 0 =
        ((assignedTo (edges.getD 0 0) (edges.getD 1 0 - edges.getD 0 0)
          (edges.length - 1) rule wU wO s (withIdx 0 (xs.zip ws))).map
            (fun e => e.2.2)).sum := by
  unfold accumulate at hacc
  by_cases hlen : edges.length < 2
  · rw [if_pos hlen] at hacc
    exact absurd hacc (by simp)
  · rw [if_neg hlen] at hacc
    have h2 : 2 ≤ edges.length := by omega
    have hk1 : 1 ≤ edges.length - 1 := by omega
    have hX := Option.some_inj.mp hacc
    have hlt : ∀ x s,
        slotOf (edges.getD 0 0) (edges.getD 1 0 - edges.getD 0 0)
          (edges.length - 1) rule wU wO x = some s →
        s < (edges.length - 1) + ((if wU then 1 else 0) + (if wO then 1 else 0)) :=
      fun x s hs =>
        slotOf_lt (edges.getD 0 0) (edges.getD 1 0 - edges.getD 0 0)
          (edges.length - 1) rule wU wO hk1 x s hs
    obtain ⟨ha, hb, hc⟩ :=
      accLoop_spec (edges.getD 0 0) (edges.getD 1 0 - edges.getD 0 0)
        (edges.length - 1) rule wU wO
        ((edges.length - 1) + ((if wU then 1 else 0) + (if wO then 1 else 0)))
        hlt (xs.zip ws) 0
        (List.replicate
          ((edges.length - 1) + ((if wU then 1 else 0) + (if wO then 1 else 0))) 0)
        (List.replicate
          ((edges.length - 1) + ((if wU then 1 else 0) + (if wO then 1 else 0))) [])
        (by simp) (by simp)
    rw [hX] at ha hb hc
    refine ⟨h2, ha, hb, fun s hs => ?_⟩
    obtain ⟨hitems, hcounts⟩ := hc s hs
    constructor
    · rw [hitems, list_getD_replicate [] [] _ s hs]
      simp
    · rw [hcounts, list_getD_replicate 0 0 _ s hs]
      simp

theorem mem_assignedTo (e0 bw : ℚ) (k : ℕ) (rule : EdgeInclusionRule)
    (wU wO : Bool) (s : ℕ) (entries : List (ℕ × ℚ × ℚ)) (e : ℕ × ℚ × ℚ) :
    e ∈ assignedTo e0 bw k rule wU wO s entries ↔
      e ∈ entries ∧ slotOf e0 bw k rule wU wO e.2.1 = some s := by
  unfold assignedTo
  rw [List.mem_filter]
  simp

/-- Entries of the zipped, indexed observation list are determined by
their input index, and carry that observation's value and weight. -/
theorem withIdx_zip_entry (xs ws : List ℚ) (e : ℕ × ℚ × ℚ)
    (h : e ∈ withIdx 0 (xs.zip ws)) :
    xs.get? e.1 = some e.2.1 ∧ ws.get? e.1 = some e.2.2 := by
  obtain ⟨-, hget⟩ := mem_withIdx (xs.zip ws) 0 e h
  rw [Nat.sub_zero] at hget
  exact (List.get?_zip_eq_some xs ws (e.2.1, e.2.2) e.1).mp hget

/-! ### buildEdges lemmas -/

theorem buildEdges_length (d0 d1 h : ℚ) :
    (buildEdges d0 d1 h).length = (max 1 ⌈(d1 - d0) / h⌉).toNat + 1 := by
  unfold buildEdges
  simp

theorem buildEdges_length_ge_two (d0 d1 h : ℚ) :
    2 ≤ (buildEdges d0 d1 h).length := by
  rw [buildEdges_length]
  have h1 : (1 : ℤ) ≤ max 1 ⌈(d1 - d0) / h⌉ := le_max_left _ _
  omega

theorem buildEdges_getD_lt (d0 d1 h : ℚ) (i : ℕ)
    (hi : i < (max 1 ⌈(d1 - d0) / h⌉).toNat) :
    (buildEdges d0 d1 h).getD i 0 = d0 + (i : ℚ) * h := by
  unfold buildEdges
  rw [list_getD_append 0 _ _ i (by simpa using hi),
    list_getD_range_map _ 0 _ i hi]

theorem buildEdges_getD_last (d0 d1 h : ℚ) :
    (buildEdges d0 d1 h).getD (max 1 ⌈(d1 - d0) / h⌉).toNat 0 = d1 := by
  have hb := list_getD_append_len (0 : ℚ) d1
    ((List.range (max 1 ⌈(d1 - d0) / h⌉).toNat).map (fun i : ℕ => d0 + (i : ℚ) * h))
  simpa [buildEdges] using hb

/-- The gap between the last uniform grid point and the snapped final
edge is positive: ((k - 1) : ℚ) * h < d1 - d0 for k = max 1 ⌈range/h⌉. -/
theorem buildEdges_last_gap (d0 d1 h : ℚ) (hd : d0 < d1) (hh : 0 < h) :
    (((max 1 ⌈(d1 - d0) / h⌉).toNat : ℚ) - 1) * h < d1 - d0 := by
  have hr : 0 < d1 - d0 := by linarith
  have hdiv : 0 < (d1 - d0) / h := div_pos hr hh
  have hceil1 : (1 : ℤ) ≤ ⌈(d1 - d0) / h⌉ := by
    have := Int.lt_ceil.mpr (show ((0 : ℤ) : ℚ) < (d1 - d0) / h by exact_mod_cast hdiv)
    omega
  have hmax : max 1 ⌈(d1 - d0) / h⌉ = ⌈(d1 - d0) / h⌉ := max_eq_right hceil1
  have htn : ((max 1 ⌈(d1 - d0) / h⌉).toNat : ℤ) = ⌈(d1 - d0) / h⌉ := by
    rw [hmax]
    exact Int.toNat_of_nonneg (by omega)
  have hlt : ((⌈(d1 - d0) / h⌉ : ℚ) - 1) < (d1 - d0) / h := by
    have := Int.ceil_lt_add_one ((d1 - d0) / h)
    linarith
  have hcast : ((max 1 ⌈(d1 - d0) / h⌉).toNat : ℚ) = ((⌈(d1 - d0) / h⌉ : ℤ) : ℚ) := by
    exact_mod_cast congrArg (fun z : ℤ => (z : ℚ)) htn
  rw [hcast]
  calc (((⌈(d1 - d0) / h⌉ : ℤ) : ℚ) - 1) * h
      < ((d1 - d0) / h) * h := by
        exact mul_lt_mul_of_pos_right (by exact_mod_cast hlt) hh
    _ = d1 - d0 := div_mul_cancel₀ _ (ne_of_gt hh)

/-! ### Claim theorems -/

/-- Claim C7: for a resolved domain with d0 < d1 and a positive width h,
buildEdges returns exactly k + 1 edges with k = max(1, ceil((d1-d0)/h)),
edge 0 is d0, edge i is d0 + i * h for i < k, the final edge is exactly
d1, and the sequence is strictly increasing. -/
theorem C7_buildEdges_shape (d0 d1 h : ℚ) (hd : d0 < d1) (hh : 0 < h) :
    (buildEdges d0 d1 h).length = (max 1 ⌈(d1 - d0) / h⌉).toNat + 1 ∧
    (buildEdges d0 d1 h).getD 0 0 = d0 ∧
    (∀ i, i < (max 1 ⌈(d1 - d0) / h⌉).toNat →
      (buildEdges d0 d1 h).getD i 0 = d0 + (i : ℚ) * h) ∧
    (buildEdges d0 d1 h).getD (max 1 ⌈(d1 - d0) / h⌉).toNat 0 = d1 ∧
    List.Pairwise (· < ·) (buildEdges d0 d1 h) := by
  have hk1 : 1 ≤ (max 1 ⌈(d1 - d0) / h⌉).toNat := by
    have h1 : (1 : ℤ) ≤ max 1 ⌈(d1 - d0) / h⌉ := le_max_left _ _
    omega
  refine ⟨buildEdges_length d0 d1 h, ?_, fun i hi => buildEdges_getD_lt d0 d1 h i hi,
    buildEdges_getD_last d0 d1 h, ?_⟩
  · rw [buildEdges_getD_lt d0 d1 h 0 (by omega)]
    ring
  · set k := (max 1 ⌈(d1 - d0) / h⌉).toNat with hkdef
    have hgap := buildEdges_last_gap d0 d1 h hd hh
    have hmono : ∀ i j : ℕ, i < j → j < k →
        d0 + (i : ℚ) * h < d0 + (j : ℚ) * h := by
      intro i j hij _
      have : (i : ℚ) < (j : ℚ) := by exact_mod_cast hij
      nlinarith
    have hlast : ∀ i : ℕ, i < k → d0 + (i : ℚ) * h < d1 := by
      intro i hi
      have hik : (i : ℚ) ≤ (k : ℚ) - 1 := by
        have : (i : ℚ) ≤ ((k - 1 : ℕ) : ℚ) := by exact_mod_cast Nat.le_sub_one_of_lt hi
        have hcast : ((k - 1 : ℕ) : ℚ) = (k : ℚ) - 1 := by
          have : (1 : ℕ) ≤ k := hk1
          push_cast [Nat.cast_sub this]
          ring
        linarith
      nlinarith
    rw [List.pairwise_iff_get]
    intro a b hab
    have hlen : (buildEdges d0 d1 h).length = k + 1 := buildEdges_length d0 d1 h
    have hbk : (b : ℕ) ≤ k := by
      have := b.isLt
      omega
    have hak : (a : ℕ) < k := by
      have := b.isLt
      have hab' : (a : ℕ) < (b : ℕ) := hab
      omega
    have hga : (buildEdges d0 d1 h).get a = d0 + ((a : ℕ) : ℚ) * h := by
      rw [← List.getD_eq_get _ 0 a.isLt]
      exact buildEdges_getD_lt d0 d1 h _ hak
    by_cases hbk' : (b : ℕ) < k
    · have hgb : (buildEdges d0 d1 h).get b = d0 + ((b : ℕ) : ℚ) * h := by
        rw [← List.getD_eq_get _ 0 b.isLt]
        exact buildEdges_getD_lt d0 d1 h _ hbk'
      rw [hga, hgb]
      exact hmono _ _ hab hbk'
    · have hbeq : (b : ℕ) = k := by omega
      have hgb : (buildEdges d0 d1 h).get b = d1 := by
        rw [← List.getD_eq_get _ 0 b.isLt, hbeq]
        exact buildEdges_getD_last d0 d1 h
      rw [hga, hgb]
      exact hlast _ hak

/-- Claim C7 witness: the theorem applied to the concrete domain [0, 1]
with width 3/10, which yields the five edges 0, 3/10, 3/5, 9/10, 1. -/
theorem C7_witness :
    (0 : ℚ) < 1 ∧ (0 : ℚ) < 3 / 10 ∧
    (buildEdges 0 1 (3 / 10)).length = (max 1 ⌈((1 : ℚ) - 0) / (3 / 10)⌉).toNat + 1 := by
  refine ⟨by norm_num, by norm_num, ?_⟩
  exact (C7_buildEdges_shape 0 1 (3 / 10) (by norm_num) (by norm_num)).1

/-- Concrete evaluation of accumulate used by the C10 witness: an
in-range value 1/2, a dropped overflow value 5 (capture off), and a
captured underflow value -3. -/
theorem accC10_eval :
    accumulate [1 / 2, 5, -3] [2, 3, 4] 0 1 [0, 1] .closedRight true false
      = some ([4, 2], [[2], [0]]) := by
  have hf : ⌊(1 / 2 : ℚ)⌋ = 0 := by
    rw [Int.floor_eq_iff] <;> norm_num
  norm_num [accumulate, accLoop, slotOf, classify, hf, RIGHT_CLOSED_EPS,
    abs_lt, List.zip, List.replicate]

/-- Claim C1, counterexample: over the domain [0, 1] with planner width
3/5 (binWidth strategy), the planner emits edges [0, 3/5, 1] with exact
upper domain bound 1, yet classify places x = 6/5 (which is 1/5 above
the domain bound, far beyond the 1e-12 tolerance) into the last in-range
bin 1, while the classifier described by the claim (tolerance around the
exact upper domain bound, specClassify) reports overflow (index 2). -/
theorem C1_counterexample :
    computeBinningPlan zfun zfun 0 1 2 0 0 (some (.binWidth (3 / 5)))
      = { h := 3 / 5, edges := [0, 3 / 5, 1], binWarnings := [] } ∧
    classify (6 / 5) 0 (3 / 5) 2 .closedRight = 1 ∧
    specClassify (6 / 5) 0 (3 / 5) 2 1 .closedRight = 2 ∧
    (1 : ℤ) ≠ 2 := by
  have hceil : ⌈(5 / 3 : ℚ)⌉ = 2 := by
    rw [Int.ceil_eq_iff] <;> norm_num
  have hfloor : ⌊(2 : ℚ)⌋ = 2 := by norm_num
  refine ⟨?_, ?_, ?_, by norm_num⟩
  · norm_num [computeBinningPlan, chooseBinWidth, clampWidth, WIDTH_EPS,
      MAX_BINS, max_def, hceil, buildEdges, List.range_succ,
      (show ((2 : ℤ).toNat) = 2 from rfl)]
  · norm_num [classify, hfloor, RIGHT_CLOSED_EPS]
  · norm_num [specClassify, hfloor, RIGHT_CLOSED_EPS, abs_lt]

/-- Claim C1 as amended: classify maps x exactly as the claim says,
except that the closed-right folding tolerance is measured against the
top of the uniform grid, start + k * h, rather than the exact upper
domain bound (the two coincide exactly when the range is an integer
multiple of h). -/
theorem C1_classify_grid_top (x start h : ℚ) (k : ℕ) (rule : EdgeInclusionRule) :
    classify x start h k rule =
      specClassify x start h k (start + (k : ℚ) * h) rule := rfl

/-- Claim C6: resolveDomain always returns a strictly increasing
interval (for any supplied domain, and for the no-domain case with
observed min ≤ max), and a degenerate domain is expanded symmetrically
by eps = 1 when the point is 0 and |d0| * 1e-6 otherwise, with a
warning. -/
theorem C6_resolveDomain_total :
    (∀ (domain : Option (JsVal × JsVal)) (mn mx : ℚ),
      domain.isSome = true ∨ mn ≤ mx →
      (resolveDomain domain mn mx).1 < (resolveDomain domain mn mx).2.1) ∧
    (∀ c : ℚ, resolveDomain none c c =
      (c - (if c = 0 then 1 else |c| * (1 / 1000000)),
       c + (if c = 0 then 1 else |c| * (1 / 1000000)),
       [zeroWidthDomainWarning])) ∧
    (∀ c mn mx : ℚ, resolveDomain (some (some c, some c)) mn mx =
      (c - (if c = 0 then 1 else |c| * (1 / 1000000)),
       c + (if c = 0 then 1 else |c| * (1 / 1000000)),
       [zeroWidthDomainWarning])) := by
  have heps : ∀ c : ℚ, 0 < (if c = 0 then 1 else |c| * (1 / 1000000) : ℚ) := by
    intro c
    by_cases hc : c = 0
    · simp [hc]
    · rw [if_neg hc]
      have : 0 < |c| := abs_pos.mpr hc
      nlinarith
  have hexp : ∀ (a b : ℚ) (w : List String), a ≤ b →
      (expandIfDegenerate a b w).1 < (expandIfDegenerate a b w).2.1 := by
    intro a b w hab
    unfold expandIfDegenerate
    by_cases he : a = b
    · rw [if_pos he]
      have := heps a
      dsimp only
      linarith
    · rw [if_neg he]
      exact lt_of_le_of_ne hab he
  refine ⟨?_, ?_, ?_⟩
  · intro domain mn mx hcase
    match domain with
    | some (a, b) =>
      unfold resolveDomain
      match a, b with
      | some qa, some qb =>
        dsimp only
        by_cases hrev : qb < qa
        · rw [if_pos hrev]
          exact hexp _ _ _ (le_of_lt hrev)
        · rw [if_neg hrev]
          exact hexp _ _ _ (le_of_not_lt hrev)
      | some qa, none =>
        dsimp only
        by_cases hrev : mx < mn
        · rw [if_pos hrev]
          exact hexp _ _ _ (le_of_lt hrev)
        · rw [if_neg hrev]
          exact hexp _ _ _ (le_of_not_lt hrev)
      | none, some qb =>
        dsimp only
        by_cases hrev : mx < mn
        · rw [if_pos hrev]
          exact hexp _ _ _ (le_of_lt hrev)
        · rw [if_neg hrev]
          exact hexp _ _ _ (le_of_not_lt hrev)
      | none, none =>
        dsimp only
        by_cases hrev : mx < mn
        · rw [if_pos hrev]
          exact hexp _ _ _ (le_of_lt hrev)
        · rw [if_neg hrev]
          exact hexp _ _ _ (le_of_not_lt hrev)
    | none =>
      have hmn : mn ≤ mx := by
        rcases hcase with hh | hh
        · simp at hh
        · exact hh
      unfold resolveDomain
      exact hexp _ _ _ hmn
  · intro c
    unfold resolveDomain expandIfDegenerate
    simp
  · intro c mn mx
    unfold resolveDomain
    dsimp only
    rw [if_neg (lt_irrefl c)]
    unfold expandIfDegenerate
    simp

/-- Claim C6 witness: the reversed supplied domain (3, -2) resolves to a
strictly increasing interval, and the degenerate observed domain 5 == 5
expands to (5 - 5e-6, 5 + 5e-6) with the zero-width warning. -/
theorem C6_witness :
    ((some ((some 3, some (-2)) : JsVal × JsVal)).isSome = true ∨ (0 : ℚ) ≤ 0) ∧
    (resolveDomain (some (some 3, some (-2))) 0 0).1 <
      (resolveDomain (some (some 3, some (-2))) 0 0).2.1 ∧
    resolveDomain none 5 5 =
      (5 - (if (5 : ℚ) = 0 then 1 else |(5 : ℚ)| * (1 / 1000000)),
       5 + (if (5 : ℚ) = 0 then 1 else |(5 : ℚ)| * (1 / 1000000)),
       [zeroWidthDomainWarning]) :=
  ⟨Or.inl rfl,
   C6_resolveDomain_total.1 (some (some 3, some (-2))) 0 0 (Or.inl rfl),
   C6_resolveDomain_total.2.1 5⟩

/-- Claim C8: summarize returns the weighted mean sum(value*weight) /
sum(weight) for equal-length inputs, and in particular data [1, 2, 3]
with weights [1, 2, 1] has mean exactly 2. -/
theorem C8_weighted_mean :
    (∀ (sqrtF : ℚ → ℚ) (xs ws : List ℚ), xs.length = ws.length →
      (summarize sqrtF xs ws).mean =
        (List.zipWith (fun a b => a * b) xs ws).sum / ws.sum) ∧
    ∀ sqrtF : ℚ → ℚ, (summarize sqrtF [1, 2, 3] [1, 2, 1]).mean = 2 := by
  constructor
  · intro sqrtF xs ws hlen
    have hmean : (summarize sqrtF xs ws).mean =
        ((xs.zip ws).map (fun p => p.1 * p.2)).sum /
          ((xs.zip ws).map (fun p => p.2)).sum := rfl
    rw [hmean, zip_map_mul xs ws, zip_map_snd xs ws hlen]
  · intro sqrtF
    have hmean : (summarize sqrtF [1, 2, 3] [1, 2, 1]).mean =
        ((([1, 2, 3] : List ℚ).zip [1, 2, 1]).map (fun p => p.1 * p.2)).sum /
          ((([1, 2, 3] : List ℚ).zip [1, 2, 1]).map (fun p => p.2)).sum := rfl
    rw [hmean]
    norm_num [List.zip]

/-- Claim C8 witness: the general statement applied to the concrete data
[1, 2, 3] with weights [1, 2, 1]. -/
theorem C8_witness :
    ([1, 2, 3] : List ℚ).length = ([1, 2, 1] : List ℚ).length ∧
    (summarize (fun _ => 0) [1, 2, 3] [1, 2, 1]).mean =
      (List.zipWith (fun a b => a * b) [1, 2, 3] [(1 : ℚ), 2, 1]).sum /
        ([(1 : ℚ), 2, 1]).sum :=
  ⟨rfl, C8_weighted_mean.1 (fun _ => 0) [1, 2, 3] [1, 2, 1] rfl⟩

/-- Claim C10: accumulate returns counts and items lists of length
exactly k + (underflow ? 1 : 0) + (overflow ? 1 : 0) with
k = edges.length - 1, each input index appears in the items list of at
most one slot, and every slot count is the sum of the weights of exactly
the indices in that slot's items list. -/
theorem C10_accumulate_invariants (xs ws : List ℚ) (st h : ℚ)
    (edges : List ℚ) (rule : EdgeInclusionRule) (wU wO : Bool)
    (counts : List ℚ) (items : List (List ℕ))
    (hacc : accumulate xs ws st h edges rule wU wO = some (counts, items)) :
    counts.length =
      (edges.length - 1) + ((if wU then 1 else 0) + (if wO then 1 else 0)) ∧
    items.length =
      (edges.length - 1) + ((if wU then 1 else 0) + (if wO then 1 else 0)) ∧
    (∀ j s1 s2, j ∈ items.getD s1 [] → j ∈ items.getD s2 [] → s1 = s2) ∧
    (∀ s, s < items.length →
      counts.getD s 0 = ((items.getD s []).map (fun j => ws.getD j 0)).sum) := by
  obtain ⟨hlen2, hcl, hil, hspec⟩ :=
    accumulate_spec xs ws st h edges rule wU wO counts items hacc
  set e0 := edges.getD 0 0
  set bw := edges.getD 1 0 - edges.getD 0 0
  set k := edges.length - 1
  set size := k + ((if wU then 1 else 0) + (if wO then 1 else 0))
  have hmem : ∀ j s, j ∈ items.getD s [] → s < size ∧
      ∃ e, e ∈ withIdx 0 (xs.zip ws) ∧
        slotOf e0 bw k rule wU wO e.2.1 = some s ∧ e.1 = j := by
    intro j s hj
    have hs : s < size := by
      by_contra hge
      rw [List.getD_eq_default _ _ (by omega : items.length ≤ s)] at hj
      simp at hj
    obtain ⟨hit, -⟩ := hspec s hs
    rw [hit] at hj
    obtain ⟨e, he, hej⟩ := List.mem_map.mp hj
    obtain ⟨hew, hes⟩ := (mem_assignedTo e0 bw k rule wU wO s _ e).mp he
    exact ⟨hs, e, hew, hes, hej⟩
  refine ⟨hcl, hil, ?_, ?_⟩
  · intro j s1 s2 h1 h2
    obtain ⟨-, e1, he1, hs1, hj1⟩ := hmem j s1 h1
    obtain ⟨-, e2, he2, hs2, hj2⟩ := hmem j s2 h2
    obtain ⟨hx1, hw1⟩ := withIdx_zip_entry xs ws e1 he1
    obtain ⟨hx2, hw2⟩ := withIdx_zip_entry xs ws e2 he2
    rw [hj1] at hx1
    rw [hj2] at hx2
    have hxeq : e1.2.1 = e2.2.1 := by
      rw [hx1] at hx2
      exact Option.some_inj.mp hx2
    rw [hxeq, hs2] at hs1
    exact (Option.some_inj.mp hs1).symm
  · intro s hs
    have hs' : s < size := by omega
    obtain ⟨hit, hct⟩ := hspec s hs'
    rw [hct, hit, List.map_map]
    refine congrArg List.sum ?_
    refine (list_map_congr _ _ _ ?_).symm
    intro e he
    obtain ⟨hew, -⟩ := (mem_assignedTo e0 bw k rule wU wO s _ e).mp he
    obtain ⟨-, hw⟩ := withIdx_zip_entry xs ws e hew
    exact list_getD_of_get? 0 hw

/-- Claim C10 witness: the theorem applied to a concrete run with one
in-range observation, one overflow observation dropped (overflow capture
off), and one captured underflow observation. -/
theorem C10_witness :
    accumulate [1 / 2, 5, -3] [2, 3, 4] 0 1 [0, 1] .closedRight true false
      = some ([4, 2], [[2], [0]]) ∧
    ([(4 : ℚ), 2]).length = 2 := by
  refine ⟨accC10_eval, ?_⟩
  have hh := (C10_accumulate_invariants [1 / 2, 5, -3] [2, 3, 4] 0 1 [0, 1]
    .closedRight true false [4, 2] [[2], [0]] accC10_eval).1
  simpa using hh

/-! ### Engine plumbing lemmas -/

theorem computeBinningPlan_edges_def (cbrtF log2F : ℚ → ℚ) (d0 d1 : ℚ)
    (n : ℕ) (iqr sd : ℚ) (binning : Option BinningStrategy) :
    (computeBinningPlan cbrtF log2F d0 d1 n iqr sd binning).edges
      = buildEdges d0 d1 (computeBinningPlan cbrtF log2F d0 d1 n iqr sd binning).h := by
  unfold computeBinningPlan
  dsimp only
  split <;> rfl

theorem computeBinningPlan_edges_len (cbrtF log2F : ℚ → ℚ) (d0 d1 : ℚ)
    (n : ℕ) (iqr sd : ℚ) (binning : Option BinningStrategy) :
    2 ≤ (computeBinningPlan cbrtF log2F d0 d1 n iqr sd binning).edges.length := by
  rw [computeBinningPlan_edges_def]
  exact buildEdges_length_ge_two _ _ _

theorem accumulate_isSome (xs ws : List ℚ) (st h : ℚ) (edges : List ℚ)
    (rule : EdgeInclusionRule) (wU wO : Bool) (hlen : 2 ≤ edges.length) :
    (accumulate xs ws st h edges rule wU wO).isSome = true := by
  unfold accumulate
  dsimp only
  rw [if_neg (by omega)]
  rfl

theorem computeHistogram_empty_eq (sqrtF cbrtF log2F : ℚ → ℚ)
    (cfg : HistogramLogicConfig)
    (hxs : (extractValuesAndWeights cfg).xs.length = 0) :
    computeHistogram sqrtF cbrtF log2F cfg
      = some (emptyResult (extractValuesAndWeights cfg).warnings) := by
  unfold computeHistogram
  dsimp only
  rw [if_pos hxs]

theorem computeHistogram_main_eq (sqrtF cbrtF log2F : ℚ → ℚ)
    (cfg : HistogramLogicConfig)
    (ex : Extracted) (hex : extractValuesAndWeights cfg = ex)
    (hxs : ¬ex.xs.length = 0)
    (s : Summary) (hs : summarize sqrtF ex.xs ex.ws = s)
    (rd : ℚ × ℚ × List String) (hrd : resolveDomain cfg.domain s.min s.max = rd)
    (plan : BinningPlan)
    (hplan : computeBinningPlan cbrtF log2F rd.1 rd.2.1 ex.xs.length
      s.iqr s.sd cfg.binning = plan)
    (flags : Bool × Bool) (hflags : resolveOverflowFlags cfg.overflow = flags)
    (counts : List ℚ) (items : List (List ℕ))
    (hacc : accumulate ex.xs ex.ws (plan.edges.getD 0 0) plan.h plan.edges
      (cfg.edgeRule.getD .closedRight) flags.1 flags.2 = some (counts, items)) :
    computeHistogram sqrtF cbrtF log2F cfg =
      (if ¬0 < s.totalWeight
       then some (emptyResult ((ex.warnings ++ rd.2.2 ++ plan.binWarnings) ++
         [zeroWeightWarning]))
       else some {
          bins := buildBins counts items plan.edges plan.h flags.1 flags.2
            s.totalWeight cfg.measure,
          domain := (rd.1, rd.2.1),
          binWidth := plan.h,
          stats := { n := ex.xs.length, totalWeight := s.totalWeight,
                     min := s.min, max := s.max, mean := s.mean,
                     variance := s.variance, sd := s.sd, iqr := s.iqr },
          warnings := ex.warnings ++ rd.2.2 ++ plan.binWarnings }) := by
  subst hex
  subst hs
  subst hrd
  subst hplan
  subst hflags
  unfold computeHistogram
  dsimp only
  rw [if_neg hxs, hacc]

/-- Claim C9: computeHistogram never fails (its only model-level failure
is the accumulate malformed-edges throw), and the planner always emits
at least two edges, so that throw is unreachable. -/
theorem C9_no_data_quality_exception :
    (∀ (sqrtF cbrtF log2F : ℚ → ℚ) (cfg : HistogramLogicConfig),
      (computeHistogram sqrtF cbrtF log2F cfg).isSome = true) ∧
    (∀ d0 d1 h : ℚ, 2 ≤ (buildEdges d0 d1 h).length) := by
  refine ⟨?_, buildEdges_length_ge_two⟩
  intro sqrtF cbrtF log2F cfg
  by_cases hxs : (extractValuesAndWeights cfg).xs.length = 0
  · rw [computeHistogram_empty_eq sqrtF cbrtF log2F cfg hxs]
    rfl
  · obtain ⟨ex, hex⟩ : ∃ ex, extractValuesAndWeights cfg = ex := ⟨_, rfl⟩
    rw [hex] at hxs
    obtain ⟨s, hs⟩ : ∃ s, summarize sqrtF ex.xs ex.ws = s := ⟨_, rfl⟩
    obtain ⟨rd, hrd⟩ : ∃ rd, resolveDomain cfg.domain s.min s.max = rd := ⟨_, rfl⟩
    obtain ⟨plan, hplan⟩ : ∃ p, computeBinningPlan cbrtF log2F rd.1 rd.2.1
        ex.xs.length s.iqr s.sd cfg.binning = p := ⟨_, rfl⟩
    obtain ⟨flags, hflags⟩ : ∃ f, resolveOverflowFlags cfg.overflow = f := ⟨_, rfl⟩
    have hlen : 2 ≤ plan.edges.length := by
      rw [← hplan]
      exact computeBinningPlan_edges_len _ _ _ _ _ _ _ _
    obtain ⟨acc, hacc⟩ := Option.isSome_iff_exists.mp
      (accumulate_isSome ex.xs ex.ws (plan.edges.getD 0 0) plan.h plan.edges
        (cfg.edgeRule.getD .closedRight) flags.1 flags.2 hlen)
    rw [computeHistogram_main_eq sqrtF cbrtF log2F cfg ex hex hxs s hs rd hrd
      plan hplan flags hflags acc.1 acc.2 (by rw [hacc])]
    by_cases ht : ¬0 < s.totalWeight
    · rw [if_pos ht]
      rfl
    · rw [if_neg ht]
      rfl

/-- Claim C4: whenever the tentative bin count max(1, ceil(range / h))
computed from the clamped chosen width exceeds MAX_BINS, the planner
recomputes h = range / MAX_BINS, emits exactly MAX_BINS bins
(MAX_BINS + 1 edges), and appends exactly one warning. -/
theorem C4_bin_count_ceiling (cbrtF log2F : ℚ → ℚ) (d0 d1 : ℚ) (n : ℕ)
    (iqr sd : ℚ) (binning : Option BinningStrategy)
    (hbig : (MAX_BINS : ℤ) < max 1 ⌈(d1 - d0) /
      max WIDTH_EPS (chooseBinWidth cbrtF log2F (d1 - d0) n iqr sd
        (some (binning.getD (.auto (some .fd)))))⌉) :
    (computeBinningPlan cbrtF log2F d0 d1 n iqr sd binning).h
      = (d1 - d0) / (MAX_BINS : ℚ) ∧
    (computeBinningPlan cbrtF log2F d0 d1 n iqr sd binning).edges.length
      = MAX_BINS + 1 ∧
    (computeBinningPlan cbrtF log2F d0 d1 n iqr sd binning).binWarnings.length
      = 1 := by
  have heps : (0 : ℚ) < WIDTH_EPS := by norm_num [WIDTH_EPS]
  have hh1 : 0 < max WIDTH_EPS (chooseBinWidth cbrtF log2F (d1 - d0) n iqr sd
      (some (binning.getD (.auto (some .fd))))) :=
    lt_of_lt_of_le heps (le_max_left _ _)
  have hceil : (MAX_BINS : ℤ) < ⌈(d1 - d0) /
      max WIDTH_EPS (chooseBinWidth cbrtF log2F (d1 - d0) n iqr sd
        (some (binning.getD (.auto (some .fd)))))⌉ := by
    rcases max_choice 1 ⌈(d1 - d0) /
        max WIDTH_EPS (chooseBinWidth cbrtF log2F (d1 - d0) n iqr sd
          (some (binning.getD (.auto (some .fd)))))⌉ with hm | hm <;>
      rw [hm] at hbig
    · exact absurd hbig (by norm_num [MAX_BINS])
    · exact hbig
  have hq : ((MAX_BINS : ℕ) : ℚ) < (d1 - d0) /
      max WIDTH_EPS (chooseBinWidth cbrtF log2F (d1 - d0) n iqr sd
        (some (binning.getD (.auto (some .fd))))) := by
    have := Int.lt_ceil.mp hceil
    exact_mod_cast this
  have h10 : (0 : ℚ) < ((MAX_BINS : ℕ) : ℚ) := by norm_num [MAX_BINS]
  have hrange : ((MAX_BINS : ℕ) : ℚ) *
      max WIDTH_EPS (chooseBinWidth cbrtF log2F (d1 - d0) n iqr sd
        (some (binning.getD (.auto (some .fd))))) < d1 - d0 :=
    (lt_div_iff hh1).mp hq
  have hrpos : 0 < d1 - d0 := by nlinarith
  have hadj : max WIDTH_EPS (chooseBinWidth cbrtF log2F (d1 - d0) n iqr sd
      (some (binning.getD (.auto (some .fd))))) <
      (d1 - d0) / ((MAX_BINS : ℕ) : ℚ) := by
    rw [lt_div_iff h10]
    nlinarith
  have hepsle : WIDTH_EPS ≤ (d1 - d0) / ((MAX_BINS : ℕ) : ℚ) :=
    le_of_lt (lt_of_le_of_lt (le_max_left _ _) hadj)
  have hmaxeq : max WIDTH_EPS ((d1 - d0) / ((MAX_BINS : ℕ) : ℚ))
      = (d1 - d0) / ((MAX_BINS : ℕ) : ℚ) := max_eq_right hepsle
  have hplan : computeBinningPlan cbrtF log2F d0 d1 n iqr sd binning
      = { h := (d1 - d0) / ((MAX_BINS : ℕ) : ℚ),
          edges := buildEdges d0 d1 ((d1 - d0) / ((MAX_BINS : ℕ) : ℚ)),
          binWarnings := [maxBinsWarning] } := by
    unfold computeBinningPlan
    dsimp only
    rw [if_pos hbig, hmaxeq]
  have hdiv : (d1 - d0) / ((d1 - d0) / ((MAX_BINS : ℕ) : ℚ))
      = ((MAX_BINS : ℕ) : ℚ) := by
    have hne : d1 - d0 ≠ 0 := ne_of_gt hrpos
    have hMne : ((MAX_BINS : ℕ) : ℚ) ≠ 0 := ne_of_gt h10
    field_simp
  have hlen : (buildEdges d0 d1 ((d1 - d0) / ((MAX_BINS : ℕ) : ℚ))).length
      = MAX_BINS + 1 := by
    rw [buildEdges_length, hdiv]
    norm_num [MAX_BINS]
    omega
  refine ⟨?_, ?_, ?_⟩
  · rw [hplan]
  · rw [hplan]
    exact hlen
  · rw [hplan]
    rfl

/-- Claim C4 witness: the theorem applied to the binCount 50000 strategy
over the domain [0, 1]: the tentative count is 50000, which exceeds
MAX_BINS, and the plan emits exactly 10001 edges with one warning. -/
theorem C4_witness :
    ((MAX_BINS : ℤ) < max 1 ⌈((1 : ℚ) - 0) /
      max WIDTH_EPS (chooseBinWidth zfun zfun ((1 : ℚ) - 0) 2 0 0
        (some ((some (BinningStrategy.binCount 50000)).getD
          (.auto (some .fd)))))⌉) ∧
    (computeBinningPlan zfun zfun 0 1 2 0 0
      (some (.binCount 50000))).edges.length = MAX_BINS + 1 ∧
    (computeBinningPlan zfun zfun 0 1 2 0 0
      (some (.binCount 50000))).binWarnings.length = 1 := by
  have hbig : (MAX_BINS : ℤ) < max 1 ⌈((1 : ℚ) - 0) /
      max WIDTH_EPS (chooseBinWidth zfun zfun ((1 : ℚ) - 0) 2 0 0
        (some ((some (BinningStrategy.binCount 50000)).getD
          (.auto (some .fd)))))⌉ := by
    norm_num [chooseBinWidth, clampWidth, WIDTH_EPS, MAX_BINS, max_def]
  obtain ⟨-, h2, h3⟩ := C4_bin_count_ceiling zfun zfun 0 1 2 0 0
    (some (.binCount 50000)) hbig
  exact ⟨hbig, h2, h3⟩

theorem accumulate_sum_eq (xs ws : List ℚ) (st h : ℚ) (edges : List ℚ)
    (rule : EdgeInclusionRule) (counts : List ℚ) (items : List (List ℕ))
    (hacc : accumulate xs ws st h edges rule true true = some (counts, items)) :
    counts.sum = ((xs.zip ws).map (fun p => p.2)).sum := by
  unfold accumulate at hacc
  dsimp only at hacc
  by_cases hlen : edges.length < 2
  · rw [if_pos hlen] at hacc
    exact absurd hacc (by simp)
  · rw [if_neg hlen] at hacc
    have hk1 : 1 ≤ edges.length - 1 := by omega
    have hsum := accLoop_sum (edges.getD 0 0) (edges.getD 1 0 - edges.getD 0 0)
      (edges.length - 1) rule
      ((edges.length - 1) + ((if true then 1 else 0) + (if true then 1 else 0)))
      (fun x s hs =>
        slotOf_lt (edges.getD 0 0) (edges.getD 1 0 - edges.getD 0 0)
          (edges.length - 1) rule true true hk1 x s hs)
      (xs.zip ws) 0
      (List.replicate
        ((edges.length - 1) + ((if true then 1 else 0) + (if true then 1 else 0))) 0)
      (List.replicate
        ((edges.length - 1) + ((if true then 1 else 0) + (if true then 1 else 0))) [])
      (by simp)
    have hX := Option.some_inj.mp hacc
    have hc : counts = (accLoop (edges.getD 0 0) (edges.getD 1 0 - edges.getD 0 0)
        (edges.length - 1) rule true true 0 (xs.zip ws)
        (List.replicate
          ((edges.length - 1) + ((if true then 1 else 0) + (if true then 1 else 0))) 0,
         List.replicate
          ((edges.length - 1) + ((if true then 1 else 0) + (if true then 1 else 0))) [])).1 := by
      rw [hX]
    rw [hc, hsum]
    simp

theorem buildBins_map_count (counts : List ℚ) (items : List (List ℕ))
    (edges : List ℚ) (h : ℚ) (u o : Bool) (tw : ℚ)
    (m : Option HistogramMeasure) :
    (buildBins counts items edges h u o tw m).map (fun b => b.count) = counts := by
  unfold buildBins
  dsimp only
  rw [List.map_map]
  exact list_map_getD_range counts

theorem slotOf_none_of_dropped (e0 bw : ℚ) (k : ℕ) (rule : EdgeInclusionRule)
    (wU wO : Bool) (x : ℚ)
    (hcond : (classify x e0 bw k rule < 0 ∧ wU = false) ∨
             ((k : ℤ) ≤ classify x e0 bw k rule ∧ wO = false)) :
    slotOf e0 bw k rule wU wO x = none := by
  unfold slotOf
  rcases hcond with ⟨hneg, hu⟩ | ⟨hge, ho⟩
  · rw [if_pos hneg, hu]
    simp
  · have hnneg : ¬classify x e0 bw k rule < 0 := by omega
    rw [if_neg hnneg, if_pos hge, ho]
    simp

/-- Claim C2: with underflow and overflow capture both enabled, the sum
of the weighted counts over all emitted bins equals stats.totalWeight
(exactly, in the rational model). -/
theorem C2_conservation (sqrtF cbrtF log2F : ℚ → ℚ)
    (cfg : HistogramLogicConfig)
    (hflags : resolveOverflowFlags cfg.overflow = (true, true)) :
    (computeHistogram sqrtF cbrtF log2F cfg).elim True
      (fun r => (r.bins.map (fun b => b.count)).sum = r.stats.totalWeight) := by
  by_cases hxs : (extractValuesAndWeights cfg).xs.length = 0
  · rw [computeHistogram_empty_eq sqrtF cbrtF log2F cfg hxs]
    simp [Option.elim, emptyResult]
  · obtain ⟨ex, hex⟩ : ∃ ex, extractValuesAndWeights cfg = ex := ⟨_, rfl⟩
    rw [hex] at hxs
    obtain ⟨s, hs⟩ : ∃ s, summarize sqrtF ex.xs ex.ws = s := ⟨_, rfl⟩
    obtain ⟨rd, hrd⟩ : ∃ rd, resolveDomain cfg.domain s.min s.max = rd := ⟨_, rfl⟩
    obtain ⟨plan, hplan⟩ : ∃ p, computeBinningPlan cbrtF log2F rd.1 rd.2.1
        ex.xs.length s.iqr s.sd cfg.binning = p := ⟨_, rfl⟩
    have hlen : 2 ≤ plan.edges.length := by
      rw [← hplan]
      exact computeBinningPlan_edges_len _ _ _ _ _ _ _ _
    obtain ⟨acc, hacc⟩ := Option.isSome_iff_exists.mp
      (accumulate_isSome ex.xs ex.ws (plan.edges.getD 0 0) plan.h plan.edges
        (cfg.edgeRule.getD .closedRight) true true hlen)
    rw [computeHistogram_main_eq sqrtF cbrtF log2F cfg ex hex hxs s hs rd hrd
      plan hplan (true, true) hflags acc.1 acc.2 (by rw [hacc])]
    by_cases ht : ¬0 < s.totalWeight
    · rw [if_pos ht]
      simp [Option.elim, emptyResult]
    · rw [if_neg ht]
      show ((buildBins acc.1 acc.2 plan.edges plan.h true true s.totalWeight
        cfg.measure).map (fun b => b.count)).sum = s.totalWeight
      rw [buildBins_map_count]
      have hsum := accumulate_sum_eq ex.xs ex.ws (plan.edges.getD 0 0) plan.h
        plan.edges (cfg.edgeRule.getD .closedRight) acc.1 acc.2 (by rw [hacc])
      rw [hsum, ← hs]
      rfl

/-- Claim C2 witness: the theorem applied to two unit-weight values with
overflow set to the boolean true (both flags enabled). -/
theorem C2_witness :
    resolveOverflowFlags cfgC2.overflow = (true, true) ∧
    (computeHistogram zfun zfun zfun cfgC2).elim True
      (fun r => (r.bins.map (fun b => b.count)).sum = r.stats.totalWeight) :=
  ⟨rfl, C2_conservation zfun zfun zfun cfgC2 rfl⟩

/-- Claim C3, counterexample: on an empty data array computeHistogram
returns the sentinel whose stats.max is 1, not 0, so the stats are not
all zero as the claim states. -/
theorem C3_counterexample :
    (computeHistogram zfun zfun zfun cfgEmpty).map (fun r => r.stats.max)
      = some 1 ∧ (1 : ℚ) ≠ 0 := by
  have hxs : (extractValuesAndWeights cfgEmpty).xs.length = 0 := rfl
  rw [computeHistogram_empty_eq zfun zfun zfun cfgEmpty hxs]
  exact ⟨rfl, by norm_num⟩

/-- Claim C3 as amended: for an empty data array computeHistogram raises
no exception and returns zero bins, domain [0, 1], bin width 1, a "No
valid data" warning, and the sentinel stats, which are all zero except
that stats.max is 1 (matching the sentinel domain upper bound). -/
theorem C3_empty_input (sqrtF cbrtF log2F : ℚ → ℚ)
    (cfg : HistogramLogicConfig) (hdata : cfg.data = []) :
    computeHistogram sqrtF cbrtF log2F cfg
      = some (emptyResult (extractValuesAndWeights cfg).warnings) ∧
    ∀ r, computeHistogram sqrtF cbrtF log2F cfg = some r →
      r.bins = [] ∧ r.domain = (0, 1) ∧ r.binWidth = 1 ∧
      r.stats = { n := 0, totalWeight := 0, min := 0, max := 1, mean := 0,
                  variance := 0, sd := 0, iqr := 0 } ∧
      "No valid data" ∈ r.warnings := by
  have hxs : (extractValuesAndWeights cfg).xs.length = 0 := by
    unfold extractValuesAndWeights
    dsimp only
    rw [hdata]
    rfl
  refine ⟨computeHistogram_empty_eq sqrtF cbrtF log2F cfg hxs, ?_⟩
  intro r hr
  rw [computeHistogram_empty_eq sqrtF cbrtF log2F cfg hxs] at hr
  have hre : emptyResult (extractValuesAndWeights cfg).warnings = r :=
    Option.some_inj.mp hr
  rw [← hre]
  exact ⟨rfl, rfl, rfl, rfl, List.mem_cons_self _ _⟩

/-- Claim C3 witness: the amended theorem applied to a concrete empty
configuration. -/
theorem C3_witness :
    cfgEmpty.data = [] ∧
    computeHistogram zfun zfun zfun cfgEmpty
      = some (emptyResult (extractValuesAndWeights cfgEmpty).warnings) :=
  ⟨rfl, (C3_empty_input zfun zfun zfun cfgEmpty rfl).1⟩

/-- Concrete pipeline evaluation for claim C5: with values 1/2 and 5
over supplied domain [0, 1], width 1, and overflow capture disabled, the
in-range percents sum to 50 while stats.totalWeight is 2. -/
theorem cfgC5_eval :
    (computeHistogram zfun zfun zfun cfgC5).map
      (fun r => ((r.bins.map (fun b => b.percent)).sum, r.stats.totalWeight))
      = some (50, 2) := by
  have hf34 : ⌊(3 / 4 : ℚ)⌋ = 0 := by rw [Int.floor_eq_iff] <;> norm_num
  have hc34 : ⌈(3 / 4 : ℚ)⌉ = 1 := by rw [Int.ceil_eq_iff] <;> norm_num
  have hf14 : ⌊(1 / 4 : ℚ)⌋ = 0 := by rw [Int.floor_eq_iff] <;> norm_num
  have hc14 : ⌈(1 / 4 : ℚ)⌉ = 1 := by rw [Int.ceil_eq_iff] <;> norm_num
  have hf12 : ⌊(1 / 2 : ℚ)⌋ = 0 := by rw [Int.floor_eq_iff] <;> norm_num
  have hex : extractValuesAndWeights cfgC5
      = { xs := [1 / 2, 5], ws := [1, 1], warnings := [] } := by
    norm_num [extractValuesAndWeights, extractLoop, valueOnFastPath, cfgC5]
  have hs : summarize zfun [1 / 2, 5] [1, 1]
      = { min := 1 / 2, max := 5, mean := 11 / 4, variance := 81 / 16,
          sd := 0, iqr := 9 / 4, totalWeight := 2 } := by
    norm_num [summarize, sortAsc, insertSorted, quantile, List.zip, zfun,
      max_def, hf34, hc34, hf14, hc14, Summary.mk.injEq]
  have hrd : resolveDomain cfgC5.domain (1 / 2 : ℚ) 5 = (0, 1, []) := by
    norm_num [cfgC5, resolveDomain, expandIfDegenerate]
  have hplan : computeBinningPlan zfun zfun 0 1 2 (9 / 4) 0
      (some (.binWidth 1)) = { h := 1, edges := [0, 1], binWarnings := [] } := by
    norm_num [computeBinningPlan, chooseBinWidth, clampWidth, WIDTH_EPS,
      MAX_BINS, max_def, buildEdges, List.range_succ, BinningPlan.mk.injEq,
      (show ((1 : ℤ).toNat) = 1 from rfl)]
  have hacc : accumulate [1 / 2, 5] [1, 1] 0 1 [0, 1] .closedRight false false
      = some ([1], [[0]]) := by
    norm_num [accumulate, accLoop, slotOf, classify, RIGHT_CLOSED_EPS,
      abs_lt, List.zip, List.replicate, hf12]
  rw [computeHistogram_main_eq zfun zfun zfun cfgC5
    { xs := [1 / 2, 5], ws := [1, 1], warnings := [] } hex (by norm_num)
    { min := 1 / 2, max := 5, mean := 11 / 4, variance := 81 / 16,
      sd := 0, iqr := 9 / 4, totalWeight := 2 } hs
    (0, 1, []) hrd
    { h := 1, edges := [0, 1], binWarnings := [] } hplan
    (false, false) rfl [1] [[0]] hacc]
  rw [if_neg (by norm_num)]
  norm_num [buildBins, List.range_succ]

/-- Claim C5: an observation classified as underflow (resp. overflow)
with the matching capture flag disabled lands in no slot's items list
(and hence, by the C10 count invariant, contributes to no slot's count),
while summarize still includes its weight in totalWeight; consequently,
in a concrete run with overflow capture disabled and out-of-range data,
the bin percents sum to 50 < 100. -/
theorem C5_dropped_excluded :
    (∀ (xs ws : List ℚ) (st h : ℚ) (edges : List ℚ)
        (rule : EdgeInclusionRule) (wU wO : Bool) (counts : List ℚ)
        (items : List (List ℕ)) (i : ℕ) (x w : ℚ),
      accumulate xs ws st h edges rule wU wO = some (counts, items) →
      (xs.zip ws).get? i = some (x, w) →
      ((classify x (edges.getD 0 0) (edges.getD 1 0 - edges.getD 0 0)
          (edges.length - 1) rule < 0 ∧ wU = false) ∨
       (((edges.length - 1 : ℕ) : ℤ) ≤ classify x (edges.getD 0 0)
          (edges.getD 1 0 - edges.getD 0 0) (edges.length - 1) rule ∧
        wO = false)) →
      ∀ s, i ∉ items.getD s []) ∧
    (∀ (sqrtF : ℚ → ℚ) (xs ws : List ℚ), xs.length = ws.length →
      (summarize sqrtF xs ws).totalWeight = ws.sum) ∧
    (computeHistogram zfun zfun zfun cfgC5).map
      (fun r => ((r.bins.map (fun b => b.percent)).sum, r.stats.totalWeight))
      = some (50, 2) ∧
    (50 : ℚ) < 100 := by
  refine ⟨?_, ?_, cfgC5_eval, by norm_num⟩
  · intro xs ws st h edges rule wU wO counts items i x w hacc hget hcond s
    intro hmem
    obtain ⟨h2, hcl, hil, hspec⟩ :=
      accumulate_spec xs ws st h edges rule wU wO counts items hacc
    by_cases hsz : s <
        (edges.length - 1) + ((if wU then 1 else 0) + (if wO then 1 else 0))
    · obtain ⟨hit, -⟩ := hspec s hsz
      rw [hit] at hmem
      obtain ⟨e, he, hej⟩ := List.mem_map.mp hmem
      obtain ⟨hew, hes⟩ := (mem_assignedTo (edges.getD 0 0)
        (edges.getD 1 0 - edges.getD 0 0) (edges.length - 1) rule wU wO s _ e).mp he
      obtain ⟨-, hget'⟩ := mem_withIdx (xs.zip ws) 0 e hew
      rw [Nat.sub_zero, hej, hget] at hget'
      have hx : x = e.2.1 :=
        congrArg Prod.fst (Option.some_inj.mp hget')
      have hnone := slotOf_none_of_dropped (edges.getD 0 0)
        (edges.getD 1 0 - edges.getD 0 0) (edges.length - 1) rule wU wO x hcond
      rw [hx] at hnone
      rw [hnone] at hes
      simp at hes
    · rw [List.getD_eq_default _ _ (by omega : items.length ≤ s)] at hmem
      simp at hmem
  · intro sqrtF xs ws hlen
    have htw : (summarize sqrtF xs ws).totalWeight
        = ((xs.zip ws).map (fun p => p.2)).sum := rfl
    rw [htw, zip_map_snd xs ws hlen]

/-- Claim C5 witness: the first part of the theorem applied to the
single overflow observation 5 with overflow capture disabled: it appears
in no items list. -/
theorem C5_witness :
    accumulate [5] [1] 0 1 [0, 1] .closedRight false false
      = some ([0], [[]]) ∧
    (([5] : List ℚ).zip [1]).get? 0 = some (5, 1) ∧
    ((1 : ℤ) ≤ classify 5 0 1 1 .closedRight ∧ false = false) ∧
    ∀ s, (0 : ℕ) ∉ ([[]] : List (List ℕ)).getD s [] := by
  have haccW : accumulate [5] [1] 0 1 [0, 1] .closedRight false false
      = some ([0], [[]]) := by
    norm_num [accumulate, accLoop, slotOf, classify, RIGHT_CLOSED_EPS,
      abs_lt, List.zip, List.replicate]
  have hclass : (1 : ℤ) ≤ classify 5 0 1 1 .closedRight := by
    norm_num [classify, RIGHT_CLOSED_EPS, abs_lt]
  refine ⟨haccW, rfl, ⟨hclass, rfl⟩, ?_⟩
  refine C5_dropped_excluded.1 [5] [1] 0 1 [0, 1] .closedRight false false
    [0] [[]] 0 5 1 haccW rfl (Or.inr ⟨?_, rfl⟩)
  show ((([0, 1] : List ℚ).length - 1 : ℕ) : ℤ) ≤ classify 5
    (([0, 1] : List ℚ).getD 0 0)
    (([0, 1] : List ℚ).getD 1 0 - ([0, 1] : List ℚ).getD 0 0)
    (([0, 1] : List ℚ).length - 1) .closedRight
  norm_num [classify, RIGHT_CLOSED_EPS, abs_lt]

end Histogram
